import Mathlib

/-!
Shallow embedding of the spread construction and pricing engine of the
Alpaca two-leg option spread example scripts.

Python `str` values are embedded as `List Char`; Python (decimal) prices
are embedded as `ℚ`.  Fallible Python functions returning `None` on
failure are embedded as `Option`-valued functions.
-/

namespace AlpacaSpread

/-! ### Characters and digits -/

/-- Value of a decimal digit character, `none` for any other character.
Embeds the per-character view of Python `int(...)` on digit strings. -/
def digitVal? (c : Char) : Option ℕ :=
  if '0' ≤ c ∧ c ≤ '9' then some (c.toNat - 48) else none

/-- The decimal digit character for `d % 10`. -/
def digitChar (d : ℕ) : Char :=
  match d % 10 with
  | 0 => '0'
  | 1 => '1'
  | 2 => '2'
  | 3 => '3'
  | 4 => '4'
  | 5 => '5'
  | 6 => '6'
  | 7 => '7'
  | 8 => '8'
  | _ => '9'

/-- Uppercase ASCII letter test, embedding the regex class `[A-Z]`. -/
def isUpperLetter (c : Char) : Bool := decide ('A' ≤ c) && decide (c ≤ 'Z')

/-- Parse a nonempty all-digit character run as a natural number; `none`
otherwise.  Embeds Python `int(s)` for the digit-string inputs occurring in
option identifiers (Python's `int` also tolerates signs and surrounding
whitespace, which never occur in the fixed-width strike field). -/
def parseNatDigits (cs : List Char) : Option ℕ :=
  if cs ≠ [] ∧ cs.all (fun c => (digitVal? c).isSome) then
    some (cs.foldl (fun a c => a * 10 + (digitVal? c).getD 0) 0)
  else none

/-! ### Calendar dates (`datetime.strptime(exp_str, ...)` validation) -/

structure Date where
  year : ℕ
  month : ℕ
  day : ℕ
deriving DecidableEq

def isLeapYear (y : ℕ) : Bool :=
  y % 4 == 0 && (y % 100 != 0 || y % 400 == 0)

def daysInMonth (y m : ℕ) : ℕ :=
  if m = 2 then (if isLeapYear y then 29 else 28)
  else if m = 4 ∨ m = 6 ∨ m = 9 ∨ m = 11 then 30
  else 31

/-- `strptime`'s `%y` pivot: two-digit years 00-68 mean 2000-2068,
69-99 mean 1969-1999. -/
def pivotYear (yy : ℕ) : ℕ := if yy ≤ 68 then 2000 + yy else 1900 + yy

/-- Build a date from two-digit year, month and day fields, validating the
ranges exactly as `datetime.strptime(_, '%y%m%d')` does. -/
def mkValidDate (yy mm dd : ℕ) : Option Date :=
  let y := pivotYear yy
  if 1 ≤ mm ∧ mm ≤ 12 ∧ 1 ≤ dd ∧ dd ≤ daysInMonth y mm then
    some ⟨y, mm, dd⟩
  else none

/-! ### Contract symbol codec -/

/-- `parse_expiration` (identical in `updated_bp_spread_example-42-friendly_v3.py`,
`Alpaca_SDK_Options_Functionality_test.py` and
`simple_graph_monitoring_spread_value.py`): reject symbols shorter than 15
characters, then parse `contract_symbol[2:8]` — a fixed offset of 2, the
length of the hard-coded ticker `'BP'` — with `strptime('%y%m%d')`. -/
def parse_expiration (s : List Char) : Option Date :=
  if s.length < 15 then none
  else
    match (s.drop 2).take 6 with
    | [y1, y2, m1, m2, d1, d2] =>
      match digitVal? y1, digitVal? y2, digitVal? m1,
            digitVal? m2, digitVal? d1, digitVal? d2 with
      | some a, some b, some c, some d, some e, some f =>
          mkValidDate (10 * a + b) (10 * c + d) (10 * e + f)
      | _, _, _, _, _, _ => none
    | _ => none

/-- `parse_strike` (identical in `simple_graph_monitoring_spread_value.py`
and `Alpaca_SDK_Options_Functionality_test.py`): reject symbols shorter
than 9 characters or whose character at index `-9` is not `'C'` (calls
only), then parse the last 8 characters as an integer and divide by 1000. -/
def parse_strike (s : List Char) : Option ℚ :=
  if s.length < 9 then none
  else if s[s.length - 9]? ≠ some 'C' then none
  else
    match parseNatDigits (s.drop (s.length - 8)) with
    | some n => some ((n : ℚ) / 1000)
    | none => none

/-- `parse_option_symbol` from `asset_management_websocket_subscription.py`:
`re.match(r'([A-Z]+)(\d\x7b6\x7d)([CP])(\d\x7b8\x7d)', symbol)`.  `re.match`
anchors at the start only, and the greedy `[A-Z]+` necessarily consumes the
maximal leading run of uppercase letters (letters cannot match `\d`, so no
backtracking into the run can succeed).  Returns
(underlying, 6-char expiration field, option type, strike = int/1000). -/
def parse_option_symbol (s : List Char) :
    Option (List Char × List Char × Char × ℚ) :=
  let u := s.takeWhile isUpperLetter
  if u.length = 0 then none
  else
    let r1 := s.drop u.length
    let e := r1.take 6
    if e.length = 6 ∧ e.all (fun c => (digitVal? c).isSome) then
      match r1.drop 6 with
      | t :: r2 =>
        if t = 'C' ∨ t = 'P' then
          let k := r2.take 8
          if k.length = 8 ∧ k.all (fun c => (digitVal? c).isSome) then
            match parseNatDigits k with
            | some n => some (u, e, t, (n : ℚ) / 1000)
            | none => none
          else none
        else none
      | [] => none
    else none

/-! ### Synthesis of identifiers (for round-trip statements) -/

/-- Two-character zero-padded decimal rendering of `n < 100`. -/
def twoDigits (n : ℕ) : List Char := [digitChar (n / 10), digitChar (n % 10)]

/-- `k`-character zero-padded decimal rendering of `n < 10 ^ k`. -/
def numDigits : ℕ → ℕ → List Char
  | 0, _ => []
  | k + 1, n => numDigits k (n / 10) ++ [digitChar (n % 10)]

/-- Synthesize the standard option contract identifier
ticker ++ YYMMDD ++ type ++ 8-digit strike field. -/
def mkOptionSymbol (u : List Char) (yy mm dd : ℕ) (t : Char) (k : ℕ) :
    List Char :=
  u ++ twoDigits yy ++ twoDigits mm ++ twoDigits dd ++ t :: numDigits 8 k

/-! ### Digit lemmas -/

theorem digitVal?_digitChar {d : ℕ} (h : d < 10) : digitVal? (digitChar d) = some d := by
  interval_cases d <;> rfl

theorem isSome_digitVal?_digitChar {d : ℕ} (h : d < 10) :
    (digitVal? (digitChar d)).isSome := by
  rw [digitVal?_digitChar h]; rfl

theorem twoDigits_all_digits {n : ℕ} (hn : n < 100) :
    ∀ c ∈ twoDigits n, (digitVal? c).isSome := by
  intro c hc
  rw [twoDigits] at hc
  rcases List.mem_cons.mp hc with rfl | hc2
  · exact isSome_digitVal?_digitChar (by omega)
  · rw [List.mem_singleton] at hc2
    subst hc2
    exact isSome_digitVal?_digitChar (by omega)

theorem isUpperLetter_digitChar (d : ℕ) : isUpperLetter (digitChar d) = false := by
  have h : d % 10 < 10 := Nat.mod_lt _ (by omega)
  unfold digitChar
  interval_cases h : d % 10 <;> rfl

theorem numDigits_length (k n : ℕ) : (numDigits k n).length = k := by
  induction k generalizing n with
  | zero => rfl
  | succ k ih => simp [numDigits, ih]

theorem numDigits_all_digits (k n : ℕ) :
    ∀ c ∈ numDigits k n, (digitVal? c).isSome := by
  induction k generalizing n with
  | zero => intro c hc; simp [numDigits] at hc
  | succ k ih =>
    intro c hc
    simp only [numDigits, List.mem_append, List.mem_singleton] at hc
    rcases hc with hc | rfl
    · exact ih _ c hc
    · exact isSome_digitVal?_digitChar (Nat.mod_lt _ (by omega))

theorem foldl_numDigits (k : ℕ) : ∀ (n a : ℕ), n < 10 ^ k →
    (numDigits k n).foldl (fun a c => a * 10 + (digitVal? c).getD 0) a =
      a * 10 ^ k + n := by
  induction k with
  | zero => intro n a h; interval_cases n; simp [numDigits]
  | succ k ih =>
    intro n a h
    have hdiv : n / 10 < 10 ^ k := by
      apply Nat.div_lt_of_lt_mul
      calc n < 10 ^ (k + 1) := h
        _ = 10 * 10 ^ k := by ring
    simp only [numDigits, List.foldl_append, List.foldl_cons, List.foldl_nil,
      ih (n / 10) a hdiv]
    rw [digitVal?_digitChar (Nat.mod_lt _ (by omega))]
    simp only [Option.getD_some]
    have hmod := Nat.div_add_mod n 10
    calc (a * 10 ^ k + n / 10) * 10 + n % 10
        = a * (10 ^ k * 10) + (10 * (n / 10) + n % 10) := by ring
      _ = a * 10 ^ (k + 1) + n := by rw [hmod]; ring

theorem parseNatDigits_numDigits {k n : ℕ} (hk : 0 < k) (h : n < 10 ^ k) :
    parseNatDigits (numDigits k n) = some n := by
  have hne : numDigits k n ≠ [] := by
    intro hnil
    have := numDigits_length k n
    rw [hnil] at this
    simp at this
    omega
  have hall : (numDigits k n).all (fun c => (digitVal? c).isSome) := by
    rw [List.all_eq_true]
    intro c hc
    exact numDigits_all_digits k n c hc
  unfold parseNatDigits
  rw [if_pos ⟨hne, hall⟩, foldl_numDigits k n 0 h]
  simp

/-! ### Codec round-trip lemmas -/

theorem length_mkOptionSymbol (u : List Char) (yy mm dd : ℕ) (t : Char) (k : ℕ) :
    (mkOptionSymbol u yy mm dd t k).length = u.length + 15 := by
  simp [mkOptionSymbol, twoDigits, numDigits_length]

/-- For a two-character ticker, `parse_expiration` reads back exactly the
synthesized YYMMDD field (validated by `strptime`). -/
theorem parse_expiration_mkOptionSymbol (u : List Char) (yy mm dd : ℕ)
    (t : Char) (k : ℕ) (hu : u.length = 2)
    (hyy : yy < 100) (hmm : mm < 100) (hdd : dd < 100) :
    parse_expiration (mkOptionSymbol u yy mm dd t k) = mkValidDate yy mm dd := by
  obtain ⟨a, b, rfl⟩ := List.length_eq_two.mp hu
  unfold parse_expiration
  rw [if_neg (by rw [length_mkOptionSymbol]; omega)]
  have hdrop : (mkOptionSymbol [a, b] yy mm dd t k).drop 2 =
      twoDigits yy ++ twoDigits mm ++ twoDigits dd ++ t :: numDigits 8 k := by
    simp [mkOptionSymbol]
  rw [hdrop]
  have htake : (twoDigits yy ++ twoDigits mm ++ twoDigits dd ++
      t :: numDigits 8 k).take 6 =
      [digitChar (yy / 10), digitChar (yy % 10), digitChar (mm / 10),
        digitChar (mm % 10), digitChar (dd / 10), digitChar (dd % 10)] := by
    simp [twoDigits]
  rw [htake]
  simp only [digitVal?_digitChar (show yy / 10 < 10 by omega),
    digitVal?_digitChar (show yy % 10 < 10 by omega),
    digitVal?_digitChar (show mm / 10 < 10 by omega),
    digitVal?_digitChar (show mm % 10 < 10 by omega),
    digitVal?_digitChar (show dd / 10 < 10 by omega),
    digitVal?_digitChar (show dd % 10 < 10 by omega)]
  rw [Nat.div_add_mod yy 10, Nat.div_add_mod mm 10, Nat.div_add_mod dd 10]

/-- For any ticker, `parse_strike` reads back exactly the synthesized 8-digit
strike field of a call symbol, divided by 1000. -/
theorem parse_strike_mkOptionSymbol (u : List Char) (yy mm dd : ℕ) (k : ℕ)
    (hk : k < 10 ^ 8) :
    parse_strike (mkOptionSymbol u yy mm dd 'C' k) = some ((k : ℚ) / 1000) := by
  have hassoc : mkOptionSymbol u yy mm dd 'C' k =
      (u ++ twoDigits yy ++ twoDigits mm ++ twoDigits dd) ++ 'C' :: numDigits 8 k := by
    simp [mkOptionSymbol]
  have hplen : (u ++ twoDigits yy ++ twoDigits mm ++ twoDigits dd).length =
      u.length + 6 := by
    simp [twoDigits]
  have hndlen := numDigits_length 8 k
  have hslen : ((u ++ twoDigits yy ++ twoDigits mm ++ twoDigits dd) ++
      'C' :: numDigits 8 k).length = u.length + 15 := by
    simp only [List.length_append, List.length_cons, hndlen] at hplen ⊢
    omega
  unfold parse_strike
  rw [hassoc, hslen]
  rw [if_neg (by omega)]
  have hidx9 : u.length + 15 - 9 =
      (u ++ twoDigits yy ++ twoDigits mm ++ twoDigits dd).length := by omega
  rw [hidx9, List.getElem?_append_right (Nat.le_refl _)]
  simp only [Nat.sub_self, List.getElem?_cons_zero]
  rw [if_neg (by simp)]
  have hidx8 : u.length + 15 - 8 =
      ((u ++ twoDigits yy ++ twoDigits mm ++ twoDigits dd) ++ ['C']).length := by
    simp only [List.length_append, List.length_cons, List.length_nil, twoDigits]
    omega
  have hsplit : (u ++ twoDigits yy ++ twoDigits mm ++ twoDigits dd) ++
      'C' :: numDigits 8 k =
      ((u ++ twoDigits yy ++ twoDigits mm ++ twoDigits dd) ++ ['C']) ++
        numDigits 8 k := by
    simp
  rw [hidx8, hsplit, List.drop_left]
  rw [parseNatDigits_numDigits (by omega) hk]

theorem takeWhile_append_all {p : Char → Bool} {u rest : List Char}
    (h : ∀ c ∈ u, p c) :
    (u ++ rest).takeWhile p = u ++ rest.takeWhile p := by
  induction u with
  | nil => simp
  | cons a u ih =>
    simp only [List.cons_append, List.takeWhile_cons]
    rw [h a (List.mem_cons_self a u),
      ih (fun c hc => h c (List.mem_cons_of_mem a hc))]
    simp

/-- The regex codec `parse_option_symbol` recovers the full
(underlying, expiration field, option type, strike) tuple from any
synthesized identifier with a nonempty all-uppercase ticker. -/
theorem parse_option_symbol_mkOptionSymbol (u : List Char) (yy mm dd : ℕ)
    (t : Char) (k : ℕ) (hu : u ≠ []) (hall : ∀ c ∈ u, isUpperLetter c)
    (hyy : yy < 100) (hmm : mm < 100) (hdd : dd < 100)
    (ht : t = 'C' ∨ t = 'P') (hk : k < 10 ^ 8) :
    parse_option_symbol (mkOptionSymbol u yy mm dd t k) =
      some (u, twoDigits yy ++ twoDigits mm ++ twoDigits dd, t, (k : ℚ) / 1000) := by
  have hrest : mkOptionSymbol u yy mm dd t k =
      u ++ (twoDigits yy ++ twoDigits mm ++ twoDigits dd ++ t :: numDigits 8 k) := by
    simp [mkOptionSymbol]
  have htw : (mkOptionSymbol u yy mm dd t k).takeWhile isUpperLetter = u := by
    rw [hrest, takeWhile_append_all hall]
    simp only [twoDigits, List.cons_append, List.takeWhile_cons,
      isUpperLetter_digitChar]
    simp
  have htake6 : (twoDigits yy ++ twoDigits mm ++ twoDigits dd ++
      t :: numDigits 8 k).take 6 = twoDigits yy ++ twoDigits mm ++ twoDigits dd := by
    simp [twoDigits]
  have hdrop6 : (twoDigits yy ++ twoDigits mm ++ twoDigits dd ++
      t :: numDigits 8 k).drop 6 = t :: numDigits 8 k := by
    simp [twoDigits]
  have hlen6 : (twoDigits yy ++ twoDigits mm ++ twoDigits dd).length = 6 := by
    simp [twoDigits]
  have hall6 : (twoDigits yy ++ twoDigits mm ++ twoDigits dd).all
      (fun c => (digitVal? c).isSome) = true := by
    rw [List.all_eq_true]
    intro c hc
    rcases List.mem_append.mp hc with hc' | hc'
    · rcases List.mem_append.mp hc' with hc'' | hc''
      · exact twoDigits_all_digits hyy c hc''
      · exact twoDigits_all_digits hmm c hc''
    · exact twoDigits_all_digits hdd c hc'
  have htk8 : (numDigits 8 k).take 8 = numDigits 8 k :=
    List.take_of_length_le (by rw [numDigits_length])
  have hlen8 : (numDigits 8 k).length = 8 := numDigits_length 8 k
  have hall8 : (numDigits 8 k).all (fun c => (digitVal? c).isSome) = true := by
    rw [List.all_eq_true]
    exact numDigits_all_digits 8 k
  have pnd := parseNatDigits_numDigits (show 0 < 8 by omega) hk
  unfold parse_option_symbol
  rw [htw]
  rw [if_neg (by simpa using hu)]
  rw [hrest, List.drop_left]
  simp only [htake6, hdrop6, hlen6, hall6, htk8, hlen8, hall8, if_pos ht, pnd,
    and_self, if_true]

theorem daysInMonth_le (y m : ℕ) : daysInMonth y m ≤ 31 := by
  unfold daysInMonth
  split
  · split <;> omega
  · split <;> omega

/-! ### Claim C1: decode round-trip -/

/-- C1 counterexample: the round-trip fails as stated.  For the one-letter
ticker `F`, the synthesized identifier `F250815C00021000` is rejected by
`parse_expiration` (which reads characters 2-8, a fixed offset, not the
characters after the ticker), and for a two-letter ticker with option type
`P` the synthesized identifier is rejected by `parse_strike` (which accepts
calls only), even though its expiration still decodes. -/
theorem claim_c1_counterexample :
    mkOptionSymbol (("F").toList) 25 8 15 'C' 21000 = ("F250815C00021000").toList
    ∧ parse_expiration (("F250815C00021000").toList) = none
    ∧ mkOptionSymbol (("BP").toList) 25 8 15 'P' 95000 = ("BP250815P00095000").toList
    ∧ parse_strike (("BP250815P00095000").toList) = none
    ∧ parse_expiration (("BP250815P00095000").toList) = some ⟨2025, 8, 15⟩ := by
  decide

/-- C1 (amended): decode round-trip.  (1) For the codec cited by the claim
(`parse_expiration` + `parse_strike`), the round-trip holds exactly on
identifiers synthesized from a two-uppercase-letter ticker, a valid YYMMDD
date and option type `C`: the expiration and the strike
(= integer(last 8 chars)/1000) are recovered.  (2) The regex codec
`parse_option_symbol` recovers the full (underlying, expiration field,
optionType, strike) tuple for any nonempty uppercase ticker and both option
types. -/
theorem claim_c1_amended :
    (∀ (u : List Char) (yy mm dd k : ℕ),
      u.length = 2 → (∀ c ∈ u, isUpperLetter c) →
      yy < 100 → 1 ≤ mm → mm ≤ 12 → 1 ≤ dd → dd ≤ daysInMonth (pivotYear yy) mm →
      k < 10 ^ 8 →
      parse_expiration (mkOptionSymbol u yy mm dd 'C' k) =
        some ⟨pivotYear yy, mm, dd⟩
      ∧ parse_strike (mkOptionSymbol u yy mm dd 'C' k) = some ((k : ℚ) / 1000))
    ∧ (∀ (u : List Char) (yy mm dd : ℕ) (t : Char) (k : ℕ),
      u ≠ [] → (∀ c ∈ u, isUpperLetter c) →
      yy < 100 → mm < 100 → dd < 100 → (t = 'C' ∨ t = 'P') → k < 10 ^ 8 →
      parse_option_symbol (mkOptionSymbol u yy mm dd t k) =
        some (u, twoDigits yy ++ twoDigits mm ++ twoDigits dd, t, (k : ℚ) / 1000)) := by
  constructor
  · intro u yy mm dd k hu _ hyy hmm1 hmm2 hdd1 hdd2 hk
    have hdm := daysInMonth_le (pivotYear yy) mm
    constructor
    · rw [parse_expiration_mkOptionSymbol u yy mm dd 'C' k hu hyy (by omega) (by omega)]
      unfold mkValidDate
      rw [if_pos ⟨hmm1, hmm2, hdd1, hdd2⟩]
    · exact parse_strike_mkOptionSymbol u yy mm dd k hk
  · intro u yy mm dd t k hu hall hyy hmm hdd ht hk
    exact parse_option_symbol_mkOptionSymbol u yy mm dd t k hu hall hyy hmm hdd ht hk

/-- C1 witness: the amended round-trip at concrete identifiers. -/
theorem claim_c1_witness :
    parse_expiration (mkOptionSymbol (("BP").toList) 25 8 15 'C' 95000) =
      some ⟨2025, 8, 15⟩
    ∧ parse_strike (mkOptionSymbol (("BP").toList) 25 8 15 'C' 95000) =
      some (((95000 : ℕ) : ℚ) / 1000)
    ∧ parse_option_symbol (mkOptionSymbol (("AMD").toList) 25 8 15 'P' 172500) =
      some (("AMD").toList, ("250815").toList, 'P', ((172500 : ℕ) : ℚ) / 1000) := by
  have h1 := claim_c1_amended.1 (("BP").toList) 25 8 15 95000 (by decide)
    (by decide) (by decide) (by decide) (by decide) (by decide) (by decide)
    (by decide)
  have h2 := claim_c1_amended.2 (("AMD").toList) 25 8 15 'P' 172500 (by decide)
    (by decide) (by decide) (by decide) (by decide) (Or.inr rfl) (by decide)
  refine ⟨h1.1, h1.2, ?_⟩
  rw [h2]
  rfl

/-! ### Quotes, rounding, order payloads -/

/-- A bid/ask quote (`latest_quote.bid_price` / `.ask_price`, or the REST
fields `bp` / `ap`). -/
structure Quote where
  bid : ℚ
  ask : ℚ
deriving DecidableEq

/-- Python's `round` to an integer: round half to even. -/
def roundHalfEven (q : ℚ) : ℤ :=
  let f := ⌊q⌋
  if q - f < 1 / 2 then f
  else if 1 / 2 < q - f then f + 1
  else if f % 2 = 0 then f else f + 1

/-- Python's `round(x, 2)`: round to 2 decimal places, half to even. -/
def round2 (q : ℚ) : ℚ := (roundHalfEven (q * 100) : ℚ) / 100

inductive LegSide where
  | buy
  | sell
deriving DecidableEq

structure OrderLeg where
  symbol : List Char
  side : LegSide
deriving DecidableEq

/-- The mleg limit-order payload the scripts build (the fields the engine
computes; transport fields like `time_in_force` are constants). -/
structure OrderPayload where
  qty : ℕ
  limit_price : ℚ
  legs : List OrderLeg
deriving DecidableEq

/-! ### Spread pricing -/

/-- `find_closest_bull_spread` pricing line (both chain scripts):
`spread_cost = (long_strike['ask'] - short_strike['bid']) * 100`, the
per-contract cost in dollars (the scripts print `spread_cost/100` as the
per-contract premium and `spread_cost` as the total for 1 contract). -/
def spread_cost (longQ shortQ : Quote) : ℚ := (longQ.ask - shortQ.bid) * 100

/-- `place_spread_order` from `test_option_chain.py` (from the point where
both leg quotes are resolved): net debit `round(buy.ap - sell.bp, 2)`;
return without an order if it is ≤ 0; otherwise build the mleg payload
(qty 1, buy leg then sell leg) and post it.  Note: no expiration
re-derivation happens on this path. -/
def place_spread_order (buySym sellSym : List Char) (buyQ sellQ : Quote) :
    Option OrderPayload :=
  let sp := round2 (buyQ.ask - sellQ.bid)
  if sp ≤ 0 then none
  else some ⟨1, sp, [⟨buySym, LegSide.buy⟩, ⟨sellSym, LegSide.sell⟩]⟩

/-- The final gate of `main` in `Alpaca_SDK_Options_Functionality_test.py`
(lines 200-224, mirrored in the other two chain scripts): re-derive each
leg's expiration with `parse_expiration`; on mismatch print an error and
return without submitting; otherwise submit the mleg order with limit
price `spread_cost / 100`. -/
def mleg_order_gate (longC shortC : List Char) (cost : ℚ) :
    Option OrderPayload :=
  if parse_expiration longC ≠ parse_expiration shortC then none
  else some ⟨1, cost / 100, [⟨longC, LegSide.buy⟩, ⟨shortC, LegSide.sell⟩]⟩

/-- Bid/ask midpoint (`long_mid` / `short_mid` in `close_mleg_spread`). -/
def quote_mid (q : Quote) : ℚ := (q.bid + q.ask) / 2

/-- `net_credit = round(long_mid - short_mid, 2)` in `close_mleg_spread`. -/
def net_credit_computed (lq sq : Quote) : ℚ :=
  round2 (quote_mid lq - quote_mid sq)

/-- The floor step of `close_mleg_spread`:
`if min_credit > 0: net_credit = max(net_credit, min_credit)`. -/
def effective_credit (lq sq : Quote) (min_credit : ℚ) : ℚ :=
  if 0 < min_credit then max (net_credit_computed lq sq) min_credit
  else net_credit_computed lq sq

/-- `close_mleg_spread` from `test_sell_2leg_option.py` (from the point
where both leg quotes are resolved): effective net credit with optional
floor; return without an order if it is ≤ 0; otherwise build the closing
mleg payload (sell-to-close the long leg, buy-to-close the short leg). -/
def close_mleg_spread (longSym shortSym : List Char) (lq sq : Quote)
    (qty : ℕ) (min_credit : ℚ) : Option OrderPayload :=
  let nc := effective_credit lq sq min_credit
  if nc ≤ 0 then none
  else some ⟨qty, nc, [⟨longSym, LegSide.sell⟩, ⟨shortSym, LegSide.buy⟩]⟩

theorem roundHalfEven_intCast (n : ℤ) : roundHalfEven (n : ℚ) = n := by
  unfold roundHalfEven
  rw [Int.floor_intCast]
  norm_num

theorem round2_of_mul_eq {q : ℚ} {n : ℤ} (h : q * 100 = (n : ℚ)) :
    round2 q = (n : ℚ) / 100 := by
  unfold round2
  rw [h, roundHalfEven_intCast]

/-! ### Claim C2: expiration re-derivation before order submission -/

/-- C2 counterexample: `place_spread_order` in `test_option_chain.py` sends
an order payload for two legs whose identifiers decode to different
expiration dates (2025-08-15 vs 2025-08-22) — no `ExpirationMismatch`
failure occurs on that path, so the claimed universal last gate does not
hold for every order-submission path. -/
theorem claim_c2_counterexample :
    parse_expiration (("BP250815C00095000").toList) ≠
      parse_expiration (("BP250822C00100000").toList)
    ∧ place_spread_order (("BP250815C00095000").toList)
        (("BP250822C00100000").toList) ⟨1, 16 / 5⟩ ⟨1, 2⟩ =
      some ⟨1, 11 / 5, [⟨("BP250815C00095000").toList, LegSide.buy⟩,
        ⟨("BP250822C00100000").toList, LegSide.sell⟩]⟩ := by
  constructor
  · decide
  · have hr : round2 ((⟨1, 16 / 5⟩ : Quote).ask - (⟨1, 2⟩ : Quote).bid) = 11 / 5 := by
      show round2 ((16 : ℚ) / 5 - 1) = 11 / 5
      rw [round2_of_mul_eq (show ((16 : ℚ) / 5 - 1) * 100 = ((220 : ℤ) : ℚ) by norm_num)]
      norm_num
    unfold place_spread_order
    simp only [hr]
    rw [if_neg (by norm_num)]

/-- C2 (amended): the expiration-consistency last gate holds on the
`main` flow of the chain scripts (modelled by `mleg_order_gate`): whenever
the two decoded expirations differ, the result is the mismatch failure and
no order payload is produced; conversely an order is only produced when the
decoded expirations agree.  `place_spread_order` in `test_option_chain.py`
performs no such re-derivation (see the counterexample). -/
theorem claim_c2_amended :
    (∀ (longC shortC : List Char) (cost : ℚ),
      parse_expiration longC ≠ parse_expiration shortC →
      mleg_order_gate longC shortC cost = none)
    ∧ (∀ (longC shortC : List Char) (cost : ℚ) (p : OrderPayload),
      mleg_order_gate longC shortC cost = some p →
      parse_expiration longC = parse_expiration shortC) := by
  constructor
  · intro lc sc cost h
    unfold mleg_order_gate
    rw [if_pos h]
  · intro lc sc cost p h
    by_contra hne
    unfold mleg_order_gate at h
    rw [if_pos hne] at h
    exact Option.noConfusion h

/-- C2 witness: the gate at concrete mismatched legs places no order. -/
theorem claim_c2_witness :
    mleg_order_gate (("BP250815C00095000").toList)
      (("BP250822C00100000").toList) 220 = none :=
  claim_c2_amended.1 _ _ 220 (by decide)

/-! ### Claim C3: debit pricing -/

/-- C3: debit pricing.  Per-contract amount is `long.ask - short.bid`, the
total for the submitted quantity (1 contract in these scripts) is
`perContract × 100 × 1`; at longAsk = 3.20, shortBid = 1.00 this yields
2.20 per contract and 220.00 total, and the submitted payload of
`place_spread_order` is a debit order at limit 2.20 with a buy leg on the
long symbol and a sell leg on the short symbol. -/
theorem claim_c3_debit_pricing :
    (∀ longQ shortQ : Quote,
      spread_cost longQ shortQ / 100 = longQ.ask - shortQ.bid
      ∧ spread_cost longQ shortQ = (longQ.ask - shortQ.bid) * 100 * 1)
    ∧ spread_cost ⟨0, 16 / 5⟩ ⟨1, 0⟩ / 100 = 11 / 5
    ∧ spread_cost ⟨0, 16 / 5⟩ ⟨1, 0⟩ = 220
    ∧ place_spread_order (("TSLA250815C00240000").toList)
        (("TSLA250815C00250000").toList) ⟨0, 16 / 5⟩ ⟨1, 0⟩ =
      some ⟨1, 11 / 5, [⟨("TSLA250815C00240000").toList, LegSide.buy⟩,
        ⟨("TSLA250815C00250000").toList, LegSide.sell⟩]⟩ := by
  refine ⟨fun lq sq => ⟨?_, ?_⟩, ?_, ?_, ?_⟩
  · unfold spread_cost
    ring
  · unfold spread_cost
    ring
  · norm_num [spread_cost]
  · norm_num [spread_cost]
  · have hr : round2 ((⟨0, 16 / 5⟩ : Quote).ask - (⟨1, 0⟩ : Quote).bid) = 11 / 5 := by
      show round2 ((16 : ℚ) / 5 - 1) = 11 / 5
      rw [round2_of_mul_eq (show ((16 : ℚ) / 5 - 1) * 100 = ((220 : ℤ) : ℚ) by norm_num)]
      norm_num
    unfold place_spread_order
    simp only [hr]
    rw [if_neg (by norm_num)]

/-! ### Claim C4: credit pricing with floor -/

/-- C4: closing (credit) pricing computes
`round2(midpoint(long) - midpoint(short))` with midpoint `(bid+ask)/2`, and
for every configured (strictly positive) minimum credit floor the effective
credit is the maximum of the computed value and the floor. -/
theorem claim_c4_credit_floor :
    ∀ (lq sq : Quote) (mc : ℚ), 0 < mc →
      net_credit_computed lq sq =
        round2 ((lq.bid + lq.ask) / 2 - (sq.bid + sq.ask) / 2)
      ∧ effective_credit lq sq mc = max (net_credit_computed lq sq) mc
      ∧ mc ≤ effective_credit lq sq mc
      ∧ (mc ≤ net_credit_computed lq sq →
          effective_credit lq sq mc = net_credit_computed lq sq) := by
  intro lq sq mc hmc
  unfold effective_credit
  rw [if_pos hmc]
  exact ⟨rfl, rfl, le_max_right _ _, fun h => max_eq_left h⟩

/-- C4 witness: the floor characterization at a concrete input. -/
theorem claim_c4_witness :
    effective_credit ⟨1, 1⟩ ⟨5, 5⟩ (1 / 2) =
      max (net_credit_computed ⟨1, 1⟩ ⟨5, 5⟩) (1 / 2)
    ∧ (1 / 2 : ℚ) ≤ effective_credit ⟨1, 1⟩ ⟨5, 5⟩ (1 / 2) := by
  have h := claim_c4_credit_floor ⟨1, 1⟩ ⟨5, 5⟩ (1 / 2) (by norm_num)
  exact ⟨h.2.1, h.2.2.1⟩

/-! ### Claim C10: positive floor makes the rejection branch unreachable -/

/-- C10: with any strictly positive minimum credit floor, the effective
credit is strictly positive, so `close_mleg_spread`'s non-positive-credit
rejection branch is never taken and the closing order is always built and
submitted, however negative the computed credit is. -/
theorem claim_c10_floor_bypass :
    ∀ (longSym shortSym : List Char) (lq sq : Quote) (qty : ℕ) (mc : ℚ),
      0 < mc →
      0 < effective_credit lq sq mc
      ∧ close_mleg_spread longSym shortSym lq sq qty mc =
          some ⟨qty, effective_credit lq sq mc,
            [⟨longSym, LegSide.sell⟩, ⟨shortSym, LegSide.buy⟩]⟩ := by
  intro longSym shortSym lq sq qty mc hmc
  have hpos : 0 < effective_credit lq sq mc := by
    unfold effective_credit
    rw [if_pos hmc]
    exact lt_of_lt_of_le hmc (le_max_right _ _)
  refine ⟨hpos, ?_⟩
  unfold close_mleg_spread
  rw [if_neg (not_le.mpr hpos)]

/-- C10 witness: a deeply negative computed credit (−4.00) is silently
raised to the 0.50 floor and the closing order is still submitted. -/
theorem claim_c10_witness :
    net_credit_computed ⟨1, 1⟩ ⟨5, 5⟩ = -4
    ∧ 0 < effective_credit ⟨1, 1⟩ ⟨5, 5⟩ (1 / 2)
    ∧ close_mleg_spread (("NFLX250815C01205000").toList)
        (("NFLX250815C01210000").toList) ⟨1, 1⟩ ⟨5, 5⟩ 1 (1 / 2) =
      some ⟨1, 1 / 2, [⟨("NFLX250815C01205000").toList, LegSide.sell⟩,
        ⟨("NFLX250815C01210000").toList, LegSide.buy⟩]⟩ := by
  have hnc : net_credit_computed ⟨1, 1⟩ ⟨5, 5⟩ = -4 := by
    show round2 (((1 : ℚ) + 1) / 2 - ((5 : ℚ) + 5) / 2) = -4
    rw [round2_of_mul_eq
      (show (((1 : ℚ) + 1) / 2 - ((5 : ℚ) + 5) / 2) * 100 = (((-400) : ℤ) : ℚ) by norm_num)]
    norm_num
  have h := claim_c10_floor_bypass (("NFLX250815C01205000").toList)
    (("NFLX250815C01210000").toList) ⟨1, 1⟩ ⟨5, 5⟩ 1 (1 / 2) (by norm_num)
  have he : effective_credit ⟨1, 1⟩ ⟨5, 5⟩ (1 / 2) = 1 / 2 := by
    unfold effective_credit
    rw [if_pos (by norm_num), hnc]
    norm_num
  refine ⟨hnc, h.1, ?_⟩
  rw [h.2, he]

/-! ### Claim C5: strike selection by target width -/

/-- `idxmin` / `argmin` tie-breaking: the first element attaining the
minimum of `f`, `none` on an empty list. -/
def first_min_by (f : ℚ → ℚ) : List ℚ → Option ℚ
  | [] => none
  | x :: xs =>
    match first_min_by f xs with
    | none => some x
    | some y => if f x ≤ f y then some x else some y

/-- Long-strike selection in `find_closest_bull_spread`
(`Alpaca_SDK_Options_Functionality_test.py` lines 131-133):
`df_group.loc[df_group['strike_diff'].idxmin()]` with
`strike_diff = abs(strike - stock_price)`. -/
def select_long (ladder : List ℚ) (p : ℚ) : Option ℚ :=
  first_min_by (fun s => |s - p|) ladder

/-- Short-strike selection (lines 136-143): among strikes
`>= long + strike_spread`, the first one minimizing
`abs(strike - (long + strike_spread))`; the empty-candidate case is the
`NoSpreadWidthMatch` failure. -/
def select_short (ladder : List ℚ) (long w : ℚ) : Option ℚ :=
  first_min_by (fun s => |s - (long + w)|)
    (ladder.filter (fun s => decide (long + w ≤ s)))

theorem first_min_by_eq_none {f : ℚ → ℚ} {l : List ℚ} :
    first_min_by f l = none ↔ l = [] := by
  cases l with
  | nil => simp [first_min_by]
  | cons a l =>
    simp only [first_min_by]
    constructor
    · intro h
      exfalso
      cases hl : first_min_by f l with
      | none =>
        simp only [hl] at h
        exact Option.noConfusion h
      | some y =>
        simp only [hl] at h
        split at h <;> exact Option.noConfusion h
    · intro h
      exact List.noConfusion h

theorem first_min_by_spec {f : ℚ → ℚ} :
    ∀ {l : List ℚ} {x : ℚ}, first_min_by f l = some x →
      x ∈ l ∧ ∀ y ∈ l, f x ≤ f y := by
  intro l
  induction l with
  | nil => intro x h; simp [first_min_by] at h
  | cons a l ih =>
    intro x h
    unfold first_min_by at h
    cases hl : first_min_by f l with
    | none =>
      simp only [hl] at h
      cases h
      have hnil : l = [] := first_min_by_eq_none.mp hl
      subst hnil
      exact ⟨by simp, by simp⟩
    | some y =>
      simp only [hl] at h
      obtain ⟨hy_mem, hy_min⟩ := ih hl
      by_cases hle : f a ≤ f y
      · rw [if_pos hle] at h
        cases h
        refine ⟨by simp, ?_⟩
        intro z hz
        rcases List.mem_cons.mp hz with rfl | hz'
        · exact le_refl _
        · exact le_trans hle (hy_min z hz')
      · rw [if_neg hle] at h
        cases h
        refine ⟨List.mem_cons_of_mem _ hy_mem, ?_⟩
        intro z hz
        rcases List.mem_cons.mp hz with rfl | hz'
        · exact le_of_lt (lt_of_not_le hle)
        · exact hy_min z hz'

/-- C5 counterexample: for ladder strikes {95, 100, 105, 110}, long
candidate 100 and target width W = 7.5, the only ladder strike ≥ 107.5 is
110, so the selector returns 110 — not 105 as the claim's example states
(the claim's own general rule also forces 110 here, since 105 < 100 + 7.5
is not a candidate at all). -/
theorem claim_c5_counterexample :
    select_short [95, 100, 105, 110] 100 (15 / 2) = some 110
    ∧ select_short [95, 100, 105, 110] 100 (15 / 2) ≠ some 105 := by
  have hfil : (([95, 100, 105, 110] : List ℚ)).filter
      (fun s => decide ((100 : ℚ) + 15 / 2 ≤ s)) = [110] := by
    norm_num [List.filter_cons]
  constructor
  · unfold select_short
    rw [hfil]
    rfl
  · unfold select_short
    rw [hfil]
    simp only [first_min_by]
    norm_num

/-- C5 (amended): width selection.  The long strike returned is a ladder
strike minimizing |strike − P|; the short strike returned is a ladder
strike ≥ long + W minimizing |strike − (long + W)| among those; if no
ladder strike is ≥ long + W the selection fails (`NoSpreadWidthMatch`).
For the ladder {95, 100, 105, 110} with long 100 and W = 7.5 the selected
short strike is 110 (the only candidate ≥ 107.5). -/
theorem claim_c5_amended :
    (∀ (ladder : List ℚ) (p x : ℚ), select_long ladder p = some x →
      x ∈ ladder ∧ ∀ s ∈ ladder, |x - p| ≤ |s - p|)
    ∧ (∀ (ladder : List ℚ) (long w x : ℚ), select_short ladder long w = some x →
      x ∈ ladder ∧ long + w ≤ x
      ∧ ∀ s ∈ ladder, long + w ≤ s → |x - (long + w)| ≤ |s - (long + w)|)
    ∧ (∀ (ladder : List ℚ) (long w : ℚ),
      (∀ s ∈ ladder, s < long + w) → select_short ladder long w = none)
    ∧ select_short [95, 100, 105, 110] 100 (15 / 2) = some 110 := by
  refine ⟨?_, ?_, ?_, claim_c5_counterexample.1⟩
  · intro ladder p x h
    exact first_min_by_spec h
  · intro ladder long w x h
    obtain ⟨hmem, hmin⟩ := first_min_by_spec h
    rw [List.mem_filter] at hmem
    refine ⟨hmem.1, by simpa using hmem.2, ?_⟩
    intro s hs hws
    exact hmin s (List.mem_filter.mpr ⟨hs, by simpa using hws⟩)
  · intro ladder long w hall
    unfold select_short
    have hfil : ladder.filter (fun s => decide (long + w ≤ s)) = [] := by
      rw [List.filter_eq_nil_iff]
      intro a ha
      simpa using not_le.mpr (hall a ha)
    rw [hfil]
    rfl

/-- C5 witness: the amended selection facts at concrete inputs. -/
theorem claim_c5_witness :
    (100 : ℚ) ∈ ([100] : List ℚ)
    ∧ (110 : ℚ) ∈ ([95, 100, 105, 110] : List ℚ)
    ∧ (100 : ℚ) + 15 / 2 ≤ 110
    ∧ select_short [95] 100 20 = none := by
  have h1 := claim_c5_amended.1 [100] 102 100 rfl
  have hfil : (([95, 100, 105, 110] : List ℚ)).filter
      (fun s => decide ((100 : ℚ) + 15 / 2 ≤ s)) = [110] := by
    norm_num [List.filter_cons]
  have h2 := claim_c5_amended.2.1 [95, 100, 105, 110] 100 (15 / 2) 110
    (by unfold select_short; rw [hfil]; rfl)
  have h3 := claim_c5_amended.2.2.1 [95] 100 20
    (by intro s hs; rw [List.mem_singleton] at hs; subst hs; norm_num)
  exact ⟨h1.1, h2.1, h2.2.1, h3⟩

/-! ### Claim C6: strike-ladder building -/

/-- `get_strikes` from `simple_graph_monitoring_spread_value.py` (line 73):
`sorted(set(parse_strike(k) for k in chain.keys() if parse_strike(k) is not None))`
— decode every chain key, drop the failures, deduplicate, sort ascending.
(The chain request itself is issued for a single expiration, so this is the
per-expiration ladder.) -/
def get_strikes (keys : List (List Char)) : List ℚ :=
  ((keys.filterMap parse_strike).dedup).mergeSort

/-- C6: for every raw chain input the built ladder is strictly increasing
by strike (hence duplicate-free), and an entry that fails to decode — a
malformed key or one whose type is not the wanted `'C'` — is skipped
without affecting the rest of the build, which never fails. -/
theorem claim_c6_ladder :
    (∀ keys : List (List Char), List.Sorted (· < ·) (get_strikes keys))
    ∧ (∀ (k : List Char) (keys : List (List Char)), parse_strike k = none →
        get_strikes (k :: keys) = get_strikes keys) := by
  constructor
  · intro keys
    have hs : List.Sorted (· ≤ ·) (get_strikes keys) :=
      List.sorted_mergeSort' _
    have hnd : (get_strikes keys).Nodup :=
      (List.mergeSort_perm _ _).symm.nodup
        (List.nodup_dedup (keys.filterMap parse_strike))
    exact hs.lt_of_le hnd
  · intro k keys h
    unfold get_strikes
    rw [List.filterMap_cons_none h]

/-- C6 witness: a put contract key is skipped; the ladder of the remaining
call key is unchanged. -/
theorem claim_c6_witness :
    parse_strike (("BP250815P00095000").toList) = none
    ∧ get_strikes [("BP250815P00095000").toList, ("BP250815C00095000").toList] =
      get_strikes [("BP250815C00095000").toList] := by
  have h : parse_strike (("BP250815P00095000").toList) = none := by decide
  exact ⟨h, claim_c6_ladder.2 _ _ h⟩

/-! ### Claim C7: soonest eligible expiration -/

/-- The expiration-selection loop of `find_closest_bull_spread`
(`Alpaca_SDK_Options_Functionality_test.py` lines 117-129, mirrored in
`find_initial_spread` of the monitoring script): sort the decoded rows by
expiration, group by expiration, walk the groups in ascending order and
return the first expiration whose group has at least 2 rows; `none` is the
`NoEligibleExpiration` outcome.  Rows are (expiration key, strike), dates
being totally ordered by their numeric YYMMDD key. -/
def soonest_eligible (rows : List (ℕ × ℚ)) : Option ℕ :=
  (((rows.map Prod.fst).dedup).mergeSort).find?
    (fun e => decide (2 ≤ (rows.filter (fun r => r.1 == e)).length))

theorem find?_sorted_minimal {p : ℕ → Bool} :
    ∀ {l : List ℕ}, List.Sorted (· ≤ ·) l → ∀ {a : ℕ}, l.find? p = some a →
      ∀ b ∈ l, p b → a ≤ b := by
  intro l
  induction l with
  | nil => intro _ a h; simp at h
  | cons x l ih =>
    intro hs a h b hb hpb
    cases hx : p x with
    | true =>
      rw [List.find?_cons_of_pos _ hx] at h
      cases h
      rcases List.mem_cons.mp hb with rfl | hb'
      · exact le_refl _
      · exact List.rel_of_sorted_cons hs b hb'
    | false =>
      rw [List.find?_cons_of_neg _ (by simp [hx])] at h
      rcases List.mem_cons.mp hb with rfl | hb'
      · rw [hx] at hpb
        exact Bool.noConfusion hpb
      · exact ih hs.of_cons h b hb' hpb

/-- C7: when no expiration is pinned, the selector returns the smallest
expiration whose group has ≥ 2 decoded entries, and returns the
`NoEligibleExpiration` outcome exactly when no expiration group has ≥ 2
entries. -/
theorem claim_c7_soonest :
    ∀ rows : List (ℕ × ℚ),
      (∀ e, soonest_eligible rows = some e →
        e ∈ rows.map Prod.fst
        ∧ 2 ≤ (rows.filter (fun r => r.1 == e)).length
        ∧ ∀ e' ∈ rows.map Prod.fst,
            2 ≤ (rows.filter (fun r => r.1 == e')).length → e ≤ e')
      ∧ (soonest_eligible rows = none →
        ∀ e ∈ rows.map Prod.fst,
          (rows.filter (fun r => r.1 == e)).length < 2) := by
  intro rows
  constructor
  · intro e h
    have hmem : e ∈ ((rows.map Prod.fst).dedup).mergeSort :=
      List.mem_of_find?_eq_some h
    have hp := List.find?_some h
    have hcount : 2 ≤ (rows.filter (fun r => r.1 == e)).length := by
      simpa using hp
    have hmem' : e ∈ rows.map Prod.fst :=
      List.mem_dedup.mp (List.mem_mergeSort.mp hmem)
    refine ⟨hmem', hcount, ?_⟩
    intro e' he' hc'
    have he2 : e' ∈ ((rows.map Prod.fst).dedup).mergeSort :=
      List.mem_mergeSort.mpr (List.mem_dedup.mpr he')
    exact find?_sorted_minimal (List.sorted_mergeSort' _) h e' he2
      (by simpa using hc')
  · intro h e he
    have he2 : e ∈ ((rows.map Prod.fst).dedup).mergeSort :=
      List.mem_mergeSort.mpr (List.mem_dedup.mpr he)
    have hne := List.find?_eq_none.mp h e he2
    simp only [decide_eq_true_eq] at hne
    omega

unseal List.merge List.mergeSort in
/-- C7 witness: among expirations 250822 and 250815, only 250815 has two
entries, and it is selected. -/
theorem claim_c7_witness :
    soonest_eligible [(250822, (100 : ℚ)), (250815, 95), (250815, 100)] =
      some 250815
    ∧ 2 ≤ (([(250822, (100 : ℚ)), (250815, 95), (250815, 100)]).filter
        (fun r => r.1 == 250815)).length
    ∧ (250815 : ℕ) ∈
        ([(250822, (100 : ℚ)), (250815, 95), (250815, 100)]).map Prod.fst := by
  have hsel : soonest_eligible
      [(250822, (100 : ℚ)), (250815, 95), (250815, 100)] = some 250815 := by
    decide
  have h := (claim_c7_soonest _).1 250815 hsel
  exact ⟨hsel, h.2.1, h.1⟩

/-! ### Claim C8: monitoring series tracker -/

/-- `MA_PERIOD = 10`. -/
def ma_window : ℕ := 10

/-- `pd.Series(ps).rolling(window=n).mean().iloc[-1]`: the arithmetic mean
of the last `n` entries. -/
def last_n_mean (n : ℕ) (ps : List ℚ) : ℚ :=
  (ps.drop (ps.length - n)).sum / (n : ℚ)

/-- The module-level mutable state: `spread_prices` and `ma_values`. -/
structure TrackerState where
  spread_prices : List ℚ
  ma_values : List (Option ℚ)
deriving DecidableEq

/-- One tick of `update_graph` (lines 253-260) after a successful quote
fetch: append the price; if at least `MA_PERIOD` prices exist, append the
rolling mean of the last 10, else append `None`. -/
def update_graph (st : TrackerState) (price : ℚ) : TrackerState :=
  if ma_window ≤ (st.spread_prices ++ [price]).length then
    ⟨st.spread_prices ++ [price],
      st.ma_values ++ [some (last_n_mean ma_window (st.spread_prices ++ [price]))]⟩
  else
    ⟨st.spread_prices ++ [price], st.ma_values ++ [none]⟩

/-- A run of live updates starting from the empty state. -/
def run_updates (prices : List ℚ) : TrackerState :=
  prices.foldl update_graph ⟨[], []⟩

/-- The backfill block (lines 284-288): after seeding `spread_prices` with
the historical run, `ma_values` becomes
`[None] * (len(spread_prices) - MA_PERIOD) + [ma]` when at least
`MA_PERIOD` prices were seeded, else `[None] * len(spread_prices)`. -/
def backfill_ma (ps : List ℚ) : List (Option ℚ) :=
  if ma_window ≤ ps.length then
    List.replicate (ps.length - ma_window) none ++
      [some (last_n_mean ma_window ps)]
  else List.replicate ps.length none

theorem update_graph_prices (st : TrackerState) (p : ℚ) :
    (update_graph st p).spread_prices = st.spread_prices ++ [p] := by
  unfold update_graph
  split <;> rfl

theorem update_graph_ma (st : TrackerState) (p : ℚ) :
    (update_graph st p).ma_values =
      if ma_window ≤ st.spread_prices.length + 1 then
        st.ma_values ++ [some (last_n_mean ma_window (st.spread_prices ++ [p]))]
      else st.ma_values ++ [none] := by
  unfold update_graph
  simp only [List.length_append, List.length_singleton]
  split <;> rfl

theorem run_updates_spec (ps : List ℚ) :
    (run_updates ps).spread_prices = ps
    ∧ (run_updates ps).ma_values =
      (List.range ps.length).map (fun i =>
        if i + 1 < ma_window then none
        else some (last_n_mean ma_window (ps.take (i + 1)))) := by
  induction ps using List.reverseRecOn with
  | nil => exact ⟨rfl, rfl⟩
  | append_singleton ps p ih =>
    obtain ⟨ih1, ih2⟩ := ih
    have hfold : run_updates (ps ++ [p]) = update_graph (run_updates ps) p := by
      unfold run_updates
      rw [List.foldl_append]
      rfl
    have hprices : (run_updates (ps ++ [p])).spread_prices = ps ++ [p] := by
      rw [hfold, update_graph_prices, ih1]
    refine ⟨hprices, ?_⟩
    rw [hfold, update_graph_ma, ih1, ih2]
    have hlen : (ps ++ [p]).length = ps.length + 1 := by simp
    rw [hlen, List.range_succ, List.map_append]
    have hold : (List.range ps.length).map (fun i =>
        if i + 1 < ma_window then none
        else some (last_n_mean ma_window ((ps ++ [p]).take (i + 1)))) =
        (List.range ps.length).map (fun i =>
        if i + 1 < ma_window then none
        else some (last_n_mean ma_window (ps.take (i + 1)))) := by
      apply List.map_congr_left
      intro i hi
      rw [List.mem_range] at hi
      rw [List.take_append_of_le_length (by omega)]
    rw [hold]
    have htake : (ps ++ [p]).take (ps.length + 1) = ps ++ [p] := by
      apply List.take_of_length_le
      simp
    simp only [List.map_cons, List.map_nil, htake]
    by_cases hc : ma_window ≤ ps.length + 1
    · rw [if_pos hc, if_neg (by omega)]
    · rw [if_neg hc, if_pos (by omega)]

/-- C8 counterexample: seeding the tracker by backfill with exactly 10
prices produces an MA series of length 1 whose single entry, at index 0,
is the numeric window mean — not "not yet available" at indices 0-8 with
the first numeric value at index 9 as the claim states for backfill. -/
theorem claim_c8_counterexample :
    backfill_ma [1, 2, 3, 4, 5, 6, 7, 8, 9, 10] = [some (11 / 2)]
    ∧ (backfill_ma [1, 2, 3, 4, 5, 6, 7, 8, 9, 10])[0]? ≠ some none
    ∧ (backfill_ma [1, 2, 3, 4, 5, 6, 7, 8, 9, 10])[9]? = none := by
  have hmean : last_n_mean ma_window [1, 2, 3, 4, 5, 6, 7, 8, 9, 10] = 11 / 2 := by
    unfold last_n_mean ma_window
    norm_num
  have hb : backfill_ma [1, 2, 3, 4, 5, 6, 7, 8, 9, 10] = [some (11 / 2)] := by
    have hlen : ([1, 2, 3, 4, 5, 6, 7, 8, 9, 10] : List ℚ).length = 10 := rfl
    unfold backfill_ma
    rw [hlen, hmean, if_pos (by norm_num [ma_window])]
    norm_num [ma_window]
  refine ⟨hb, ?_, ?_⟩ <;> rw [hb] <;> simp

/-- C8 (amended): moving-average availability.  For live appends the claim
holds as stated: the MA series has one entry per price sample; entries at
indices 0-8 are "not yet available" (`None`) and from index 9 on each entry
is the arithmetic mean of the last 10 prices up to that index.  Backfill
follows the same rule only when fewer than 10 prices are seeded (all
entries `None`); with n ≥ 10 seeded prices it instead produces a series of
length n − 9: n − 10 placeholders followed by a single numeric value — the
mean of the last 10 seeded prices (agreeing with the live series' final
entry) — so the stated index alignment does not hold there. -/
theorem claim_c8_amended :
    ∀ ps : List ℚ,
      (run_updates ps).spread_prices = ps
      ∧ (run_updates ps).ma_values.length = ps.length
      ∧ (∀ i, i < ps.length → i + 1 < ma_window →
          (run_updates ps).ma_values[i]? = some none)
      ∧ (∀ i, i < ps.length → ma_window ≤ i + 1 →
          (run_updates ps).ma_values[i]? =
            some (some (last_n_mean ma_window (ps.take (i + 1)))))
      ∧ (ps.length < ma_window → backfill_ma ps = (run_updates ps).ma_values)
      ∧ (ma_window ≤ ps.length →
          (backfill_ma ps).length = ps.length - ma_window + 1
          ∧ (backfill_ma ps).getLast? =
              some (some (last_n_mean ma_window ps))
          ∧ ∀ i, i < ps.length - ma_window →
              (backfill_ma ps)[i]? = some none) := by
  intro ps
  obtain ⟨h1, h2⟩ := run_updates_spec ps
  refine ⟨h1, ?_, ?_, ?_, ?_, ?_⟩
  · rw [h2]
    simp
  · intro i hi hw
    rw [h2, List.getElem?_map, List.getElem?_range hi]
    simp only [Option.map_some']
    rw [if_pos hw]
  · intro i hi hw
    rw [h2, List.getElem?_map, List.getElem?_range hi]
    simp only [Option.map_some']
    rw [if_neg (by omega)]
  · intro hlt
    unfold backfill_ma
    rw [if_neg (by omega), h2]
    symm
    rw [List.eq_replicate_iff]
    refine ⟨by simp, ?_⟩
    intro b hb
    rw [List.mem_map] at hb
    obtain ⟨i, hi, rfl⟩ := hb
    rw [List.mem_range] at hi
    rw [if_pos (by omega)]
  · intro hge
    unfold backfill_ma
    rw [if_pos hge]
    refine ⟨?_, ?_, ?_⟩
    · simp
    · exact List.getLast?_concat _
    · intro i hi
      rw [List.getElem?_append_left (by simpa using hi)]
      exact List.getElem?_replicate_of_lt hi

/-- C8 witness: live appends of 10 prices give `None` at index 0 and the
window mean 5.5 at index 9; backfill of 2 prices matches the live series;
backfill of the same 10 prices is the one-element series `[5.5]`. -/
theorem claim_c8_witness :
    (run_updates [1, 2, 3, 4, 5, 6, 7, 8, 9, 10]).ma_values[0]? = some none
    ∧ (run_updates [1, 2, 3, 4, 5, 6, 7, 8, 9, 10]).ma_values[9]? =
        some (some (last_n_mean ma_window [1, 2, 3, 4, 5, 6, 7, 8, 9, 10]))
    ∧ backfill_ma [1, 2] = (run_updates [1, 2]).ma_values
    ∧ (backfill_ma [1, 2, 3, 4, 5, 6, 7, 8, 9, 10]).length = 1
    ∧ (backfill_ma [1, 2, 3, 4, 5, 6, 7, 8, 9, 10]).getLast? =
        some (some (last_n_mean ma_window [1, 2, 3, 4, 5, 6, 7, 8, 9, 10])) := by
  have h := claim_c8_amended [1, 2, 3, 4, 5, 6, 7, 8, 9, 10]
  have h2 := claim_c8_amended [1, 2]
  have hb := h.2.2.2.2.2 (by decide)
  have h9 := h.2.2.2.1 9 (by decide) (by decide)
  rw [show ([1, 2, 3, 4, 5, 6, 7, 8, 9, 10] : List ℚ).take 10 =
    [1, 2, 3, 4, 5, 6, 7, 8, 9, 10] from rfl] at h9
  exact ⟨h.2.2.1 0 (by decide) (by decide), h9,
    h2.2.2.2.2.1 (by decide), hb.1, hb.2.1⟩

/-! ### Claim C9: position grouping into spreads -/

/-- `position.side`: Alpaca reports `'long'` or `'short'`. -/
inductive PosSide where
  | long
  | short
deriving DecidableEq

/-- A held position: its option symbol, its side, and whether its asset
class contains `'option'`. -/
structure Position where
  symbol : List Char
  side : PosSide
  is_option : Bool
deriving DecidableEq

/-- The grouping performed by `find_spreads`
(`asset_management_websocket_subscription.py` lines 57-64): a position
contributes to group `(underlying, exp)` only when its asset class is an
option, its symbol parses, and its option type is `'C'` (the script
focuses on calls; type is constant `'C'` inside every key). -/
def spread_key (p : Position) : Option (List Char × List Char) :=
  if p.is_option then
    match parse_option_symbol p.symbol with
    | some (u, e, t, _) => if t = 'C' then some (u, e) else none
    | none => none
  else none

/-- The sort key of `group.sort(key=lambda p: parse_option_symbol(p.symbol)[3])`:
the decoded strike (0 for unparseable symbols, which never occur inside a
group). -/
def strike_of (p : Position) : ℚ :=
  match parse_option_symbol p.symbol with
  | some (_, _, _, k) => k
  | none => 0

def posLE (a b : Position) : Bool := decide (strike_of a ≤ strike_of b)

/-- The positions collected under one key. -/
def group_of (ps : List Position) (k : List Char × List Char) :
    List Position :=
  ps.filter (fun p => decide (spread_key p = some k))

/-- `find_spreads` (lines 57-74): for each key whose group has ≥ 2
positions, sort the group ascending by strike, take the first two as
(long leg, short leg), and keep the pair only if the first is held long
and the second held short. -/
def find_spreads (ps : List Position) :
    List ((List Char × List Char) × Position × Position) :=
  ((ps.filterMap spread_key).dedup).filterMap (fun k =>
    if 2 ≤ (group_of ps k).length then
      match (group_of ps k).mergeSort posLE with
      | a :: b :: _ =>
        if a.side = PosSide.long ∧ b.side = PosSide.short then
          some (k, a, b)
        else none
      | _ => none
    else none)

theorem posLE_trans : ∀ (a b c : Position), posLE a b → posLE b c → posLE a c := by
  intro a b c hab hbc
  simp only [posLE, decide_eq_true_eq] at hab hbc ⊢
  exact le_trans hab hbc

theorem posLE_total : ∀ (a b : Position), posLE a b || posLE b a := by
  intro a b
  simp only [posLE, Bool.or_eq_true, decide_eq_true_eq]
  exact le_total _ _

theorem mem_find_spreads_iff (ps : List Position)
    (k : List Char × List Char) (a b : Position) :
    (k, a, b) ∈ find_spreads ps ↔
      k ∈ (ps.filterMap spread_key).dedup
      ∧ 2 ≤ (group_of ps k).length
      ∧ (∃ rest, (group_of ps k).mergeSort posLE = a :: b :: rest)
      ∧ a.side = PosSide.long ∧ b.side = PosSide.short := by
  unfold find_spreads
  rw [List.mem_filterMap]
  constructor
  · rintro ⟨k', hk', hfk'⟩
    by_cases h2 : 2 ≤ (group_of ps k').length
    · rw [if_pos h2] at hfk'
      cases hms : (group_of ps k').mergeSort posLE with
      | nil =>
        simp only [hms] at hfk'
        exact Option.noConfusion hfk'
      | cons x xs =>
        cases xs with
        | nil =>
          simp only [hms] at hfk'
          exact Option.noConfusion hfk'
        | cons y ys =>
          simp only [hms] at hfk'
          by_cases hside : x.side = PosSide.long ∧ y.side = PosSide.short
          · rw [if_pos hside] at hfk'
            simp only [Option.some.injEq, Prod.mk.injEq] at hfk'
            obtain ⟨rfl, rfl, rfl⟩ := hfk'
            exact ⟨hk', h2, ⟨ys, hms⟩, hside⟩
          · rw [if_neg hside] at hfk'
            exact Option.noConfusion hfk'
    · rw [if_neg h2] at hfk'
      exact Option.noConfusion hfk'
  · rintro ⟨hk, h2, ⟨rest, hms⟩, hsa, hsb⟩
    refine ⟨k, hk, ?_⟩
    rw [if_pos h2]
    simp only [hms]
    rw [if_pos ⟨hsa, hsb⟩]

/-- C9 counterexample: a perfectly formed two-leg put spread (type `'P'`)
is not grouped at all — `find_spreads` only keys call positions, so the
claimed grouping over every (underlying, expiration, optionType) fails for
puts. -/
theorem claim_c9_counterexample :
    spread_key ⟨("AMD250815P00095000").toList, PosSide.long, true⟩ = none
    ∧ find_spreads [⟨("AMD250815P00095000").toList, PosSide.long, true⟩,
        ⟨("AMD250815P00100000").toList, PosSide.short, true⟩] = [] := by
  constructor <;> decide

/-- C9 (amended): grouping keys only call option positions, by
(underlying, expiration) with option type fixed at `'C'`.  A key appears in
the output iff its group has ≥ 2 positions, the strike-sorted group starts
with (a, b), and a is held long and b held short; any output pair consists
of two call positions of that key from the input, with a's strike minimal
in the group, b's strike at most every remaining sorted position's strike,
and a's strike ≤ b's strike. -/
theorem claim_c9_amended :
    ∀ (ps : List Position) (k : List Char × List Char) (a b : Position),
      ((k, a, b) ∈ find_spreads ps ↔
        2 ≤ (group_of ps k).length
        ∧ (∃ rest, (group_of ps k).mergeSort posLE = a :: b :: rest)
        ∧ a.side = PosSide.long ∧ b.side = PosSide.short)
      ∧ ((k, a, b) ∈ find_spreads ps →
        a ∈ ps ∧ b ∈ ps ∧ spread_key a = some k ∧ spread_key b = some k
        ∧ strike_of a ≤ strike_of b
        ∧ (∀ p ∈ group_of ps k, strike_of a ≤ strike_of p)
        ∧ ∃ rest, (group_of ps k).mergeSort posLE = a :: b :: rest
            ∧ ∀ p ∈ rest, strike_of b ≤ strike_of p) := by
  intro ps k a b
  constructor
  · rw [mem_find_spreads_iff]
    constructor
    · rintro ⟨_, h2, hrest, hside⟩
      exact ⟨h2, hrest, hside⟩
    · rintro ⟨h2, hrest, hside⟩
      have hpos : 0 < (group_of ps k).length := by omega
      obtain ⟨p, hp⟩ := List.exists_mem_of_length_pos hpos
      rw [group_of, List.mem_filter, decide_eq_true_eq] at hp
      exact ⟨List.mem_dedup.mpr (List.mem_filterMap.mpr ⟨p, hp.1, hp.2⟩),
        h2, hrest, hside⟩
  · intro hmem
    obtain ⟨_, h2, ⟨rest, hms⟩, _, _⟩ := (mem_find_spreads_iff ps k a b).mp hmem
    have hsorted := List.sorted_mergeSort posLE_trans posLE_total (group_of ps k)
    rw [hms] at hsorted
    have hmema : a ∈ (group_of ps k).mergeSort posLE := by
      rw [hms]
      simp
    have hmemb : b ∈ (group_of ps k).mergeSort posLE := by
      rw [hms]
      simp
    rw [List.mem_mergeSort] at hmema hmemb
    have hga := hmema
    have hgb := hmemb
    rw [group_of, List.mem_filter, decide_eq_true_eq] at hga hgb
    rw [List.pairwise_cons] at hsorted
    obtain ⟨hafirst, hsorted2⟩ := hsorted
    rw [List.pairwise_cons] at hsorted2
    obtain ⟨hbfirst, _⟩ := hsorted2
    have hab : strike_of a ≤ strike_of b := by
      have := hafirst b (by simp)
      simpa [posLE] using this
    refine ⟨hga.1, hgb.1, hga.2, hgb.2, hab, ?_, rest, hms, ?_⟩
    · intro p hp
      have hp' : p ∈ (group_of ps k).mergeSort posLE :=
        List.mem_mergeSort.mpr hp
      rw [hms] at hp'
      rcases List.mem_cons.mp hp' with rfl | hp'
      · exact le_refl _
      · have := hafirst p hp'
        simpa [posLE] using this
    · intro p hp
      have := hbfirst p hp
      simpa [posLE] using this

/-- C9 witness: a long 95-strike call and a short 100-strike call on the
same underlying and expiration are paired as (long, short). -/
theorem claim_c9_witness :
    (((("AMD").toList, ("250815").toList),
        (⟨("AMD250815C00095000").toList, PosSide.long, true⟩ : Position),
        (⟨("AMD250815C00100000").toList, PosSide.short, true⟩ : Position)) ∈
      find_spreads [⟨("AMD250815C00095000").toList, PosSide.long, true⟩,
        ⟨("AMD250815C00100000").toList, PosSide.short, true⟩])
    ∧ strike_of (⟨("AMD250815C00095000").toList, PosSide.long, true⟩ : Position) ≤
        strike_of (⟨("AMD250815C00100000").toList, PosSide.short, true⟩ : Position) := by
  have hs1 : strike_of (⟨("AMD250815C00095000").toList, PosSide.long, true⟩ : Position) =
      ((95000 : ℕ) : ℚ) / 1000 := rfl
  have hs2 : strike_of (⟨("AMD250815C00100000").toList, PosSide.short, true⟩ : Position) =
      ((100000 : ℕ) : ℚ) / 1000 := rfl
  have hle : posLE ⟨("AMD250815C00095000").toList, PosSide.long, true⟩
      ⟨("AMD250815C00100000").toList, PosSide.short, true⟩ = true := by
    unfold posLE
    rw [hs1, hs2]
    rw [decide_eq_true_eq]
    have h1 : ((95000 : ℕ) : ℚ) ≤ ((100000 : ℕ) : ℚ) := by
      rw [Nat.cast_le]
      omega
    have h1000 : (0 : ℚ) ≤ 1000 := by norm_num
    exact div_le_div_of_nonneg_right h1 h1000
  have hg : group_of [⟨("AMD250815C00095000").toList, PosSide.long, true⟩,
      ⟨("AMD250815C00100000").toList, PosSide.short, true⟩]
      ((("AMD").toList, ("250815").toList)) =
      [⟨("AMD250815C00095000").toList, PosSide.long, true⟩,
        ⟨("AMD250815C00100000").toList, PosSide.short, true⟩] := by
    decide
  have hms : (group_of [⟨("AMD250815C00095000").toList, PosSide.long, true⟩,
      ⟨("AMD250815C00100000").toList, PosSide.short, true⟩]
      ((("AMD").toList, ("250815").toList))).mergeSort posLE =
      [⟨("AMD250815C00095000").toList, PosSide.long, true⟩,
        ⟨("AMD250815C00100000").toList, PosSide.short, true⟩] := by
    rw [hg]
    apply List.mergeSort_of_sorted
    exact List.pairwise_cons.mpr ⟨fun p hp => by
      rw [List.mem_singleton] at hp
      subst hp
      exact hle, List.pairwise_singleton _ _⟩
  have hmem := ((claim_c9_amended [⟨("AMD250815C00095000").toList, PosSide.long, true⟩,
      ⟨("AMD250815C00100000").toList, PosSide.short, true⟩]
      ((("AMD").toList, ("250815").toList))
      ⟨("AMD250815C00095000").toList, PosSide.long, true⟩
      ⟨("AMD250815C00100000").toList, PosSide.short, true⟩).1).mpr
    ⟨by rw [hg]; decide, ⟨[], hms⟩, rfl, rfl⟩
  have hprops := (claim_c9_amended _ _ _ _).2 hmem
  exact ⟨hmem, hprops.2.2.2.2.1⟩

end AlpacaSpread
